import Mathlib

/-!
Shallow embedding of the calvest recurrence engine
(src/ical/rrule.rs, src/ical/mod.rs, src/ical/parse.rs, src/main.rs).

Instants (`chrono::DateTime<Utc>`) are modelled as integers counting seconds
since the Unix epoch; adding `chrono::Duration::days(n)` is adding `86400 * n`.
Calendar field accessors (`Datelike::day/month/year/weekday`,
`Month::num_days`) are modelled by the standard proleptic-Gregorian civil
conversion on the day number `t / 86400`, which is the documented semantics of
the chrono types the code uses.  All arithmetic is on `ℤ`/`ℕ`; the `u8`/`i8`
arithmetic in the source never over- or under-flows on real dates, and the
embedding mirrors the same expressions on `ℤ`.
-/

namespace Calvest

/-! ### Civil calendar arithmetic (semantics of chrono's Datelike accessors) -/

/-- Day number of an instant: seconds since epoch divided by 86400, floored
(`ℤ` division is Euclidean, which coincides with floor for the positive
divisor 86400). -/
def dayNum (t : ℤ) : ℤ := t / 86400

/-- Day-of-era inside the 146097-day (400-year) Gregorian cycle, with the
epoch shifted to 0000-03-01. -/
def doeOf (z : ℤ) : ℤ := (z + 719468) % 146097

/-- Era index of a day number (which 400-year cycle it falls in). -/
def eraOf (z : ℤ) : ℤ := (z + 719468 - doeOf z) / 146097

/-- Year-of-era (0–399) from the day-of-era. -/
def yoeOfDoe (doe : ℤ) : ℤ := (doe - doe / 1460 + doe / 36524 - doe / 146096) / 365

/-- Day-of-year (March-based, 0–365) from the day-of-era. -/
def doyOfDoe (doe : ℤ) : ℤ :=
  doe - (365 * yoeOfDoe doe + yoeOfDoe doe / 4 - yoeOfDoe doe / 100)

/-- March-based month index (0 = March, …, 11 = February) from day-of-era. -/
def mpOfDoe (doe : ℤ) : ℤ := (5 * doyOfDoe doe + 2) / 153

/-- Day of month (1–31) from the day-of-era. -/
def dayOfMonthOfDoe (doe : ℤ) : ℤ :=
  doyOfDoe doe - (153 * mpOfDoe doe + 2) / 5 + 1

/-- Calendar month (1–12) from the day-of-era. -/
def monthOfDoe (doe : ℤ) : ℤ :=
  mpOfDoe doe + (if mpOfDoe doe < 10 then 3 else -9)

/-- Day of month of a day number (`Datelike::day`). -/
def dayOfMonthZ (z : ℤ) : ℤ := dayOfMonthOfDoe (doeOf z)

/-- Month of a day number (`Datelike::month`). -/
def monthZ (z : ℤ) : ℤ := monthOfDoe (doeOf z)

/-- Year of a day number (`Datelike::year`). -/
def yearZ (z : ℤ) : ℤ :=
  yoeOfDoe (doeOf z) + eraOf z * 400 + (if monthOfDoe (doeOf z) ≤ 2 then 1 else 0)

/-- Weekday index of a day number, 0 = Monday … 6 = Sunday
(day 0 = 1970-01-01 was a Thursday, index 3). -/
def weekdayNumZ (z : ℤ) : ℤ := (z + 3) % 7

/-- The `chrono::Weekday` enumeration. -/
inductive Weekday where
  | mon | tue | wed | thu | fri | sat | sun
  deriving DecidableEq

/-- `Weekday::num_days_from_monday` (0 = Monday … 6 = Sunday). -/
def Weekday.idx : Weekday → ℤ
  | .mon => 0 | .tue => 1 | .wed => 2 | .thu => 3 | .fri => 4 | .sat => 5 | .sun => 6

/-- Weekday from its from-Monday index. -/
def Weekday.ofIdx : ℕ → Weekday
  | 0 => .mon | 1 => .tue | 2 => .wed | 3 => .thu | 4 => .fri | 5 => .sat | _ => .sun

/-- `Datelike::weekday` of a day number. -/
def weekdayOfZ (z : ℤ) : Weekday := Weekday.ofIdx (weekdayNumZ z).toNat

/-- Gregorian leap-year predicate (chrono's calendar). -/
def isLeap (y : ℤ) : Bool := y % 4 = 0 ∧ (y % 100 ≠ 0 ∨ y % 400 = 0)

/-- `chrono::Month::num_days(year)` for month `m` (1–12) of year `y`. -/
def daysInMonth (y m : ℤ) : ℤ :=
  if m = 2 then (if isLeap y then 29 else 28)
  else if m = 4 ∨ m = 6 ∨ m = 9 ∨ m = 11 then 30
  else 31

/-- Day number of a civil date (inverse civil conversion), used to model
`checked_add_months`. -/
def daysFromCivil (y m d : ℤ) : ℤ :=
  let ya := y - (if m ≤ 2 then 1 else 0)
  let era := ya / 400
  let yoe := ya - era * 400
  let doy := (153 * (m + (if m > 2 then -3 else 9)) + 2) / 5 + d - 1
  let doe := yoe * 365 + yoe / 4 - yoe / 100 + doy
  era * 146097 + doe - 719468

/-- `checked_add_months(Months::new(k))` on an instant: add `k` calendar
months to the civil date, clamping the day of month to the target month's
length, keeping the time of day. -/
def addMonths (t : ℤ) (k : ℕ) : ℤ :=
  let z := dayNum t
  let tod := t - z * 86400
  let y := yearZ z
  let m := monthZ z
  let d := dayOfMonthZ z
  let total := y * 12 + (m - 1) + (k : ℤ)
  let y2 := total / 12
  let m2 := total % 12 + 1
  let d2 := min d (daysInMonth y2 m2)
  daysFromCivil y2 m2 d2 * 86400 + tod

/-- Calendar field accessors on instants. -/
def dayOf (t : ℤ) : ℤ := dayOfMonthZ (dayNum t)

/-- Month accessor on instants. -/
def monthOf (t : ℤ) : ℤ := monthZ (dayNum t)

/-- Year accessor on instants. -/
def yearOf (t : ℤ) : ℤ := yearZ (dayNum t)

/-- Weekday accessor on instants. -/
def weekdayOf (t : ℤ) : Weekday := weekdayOfZ (dayNum t)

/-- Length of the month an instant falls in
(`Month::try_from(dt.month()).unwrap().num_days(dt.year())`). -/
def monthDaysOf (t : ℤ) : ℤ := daysInMonth (yearOf t) (monthOf t)

/-! ### Recurrence-rule data model (src/ical/rrule.rs) -/

/-- `EventFrequency` from rrule.rs. -/
inductive EventFrequency where
  | secondly | minutely | hourly | daily | weekly | monthly | yearly
  deriving DecidableEq

/-- `ByMonthDayDay`: one signed BYMONTHDAY selector (`i8` field). -/
structure ByMonthDayDay where
  month_day : ℤ
  deriving DecidableEq

/-- `ByMonthDayDay::matches`.  Positive selector: `dt.day() as i8 == self.month_day`.
Negative selector: `self.month_day.abs() as u8 == ((month_days - dt.day() as u8) / 7) + 1`. -/
def ByMonthDayDay.matches (s : ByMonthDayDay) (t : ℤ) : Bool :=
  if s.month_day > 0 then dayOf t = s.month_day
  else |s.month_day| = (monthDaysOf t - dayOf t) / 7 + 1

/-- `ByDayDay`: one BYDAY selector, a weekday plus an optional signed ordinal
(`Option<i32>`). -/
structure ByDayDay where
  week_day : Weekday
  n : Option ℤ
  deriving DecidableEq

/-- `ByDayDay::matches`.  Weekday must be equal; with an ordinal,
positive: `n.abs() as u8 == (dt.day() as u8 / 7) + 1`,
negative: `n.abs() as u8 == ((month_days - dt.day() as u8) / 7) + 1`. -/
def ByDayDay.matches (s : ByDayDay) (t : ℤ) : Bool :=
  if weekdayOf t = s.week_day then
    match s.n with
    | none => true
    | some n =>
      if n > 0 then |n| = dayOf t / 7 + 1
      else |n| = (monthDaysOf t - dayOf t) / 7 + 1
  else false

/-- `RRule` from rrule.rs (`interval`, `count` are `u32`).  The source field
`until` is spelled `untilDt` here because `until` is reserved in Lean. -/
structure RRule where
  frequency : EventFrequency
  untilDt : Option ℤ
  count : Option ℕ
  interval : ℕ
  week_start : Weekday
  byday : List ByDayDay
  bymonthday : List ByMonthDayDay
  byweekno : List ℤ
  bymonth : List ℤ
  byyearday : List ℤ
  bysetpos : List ℤ
  deriving DecidableEq

/-- `RRule::byday_matches`: vacuous on an empty list, otherwise any member. -/
def RRule.byday_matches (r : RRule) (t : ℤ) : Bool :=
  r.byday.isEmpty || r.byday.any (fun d => d.matches t)

/-- `RRule::bymonthday_matches`: vacuous on an empty list, otherwise any member. -/
def RRule.bymonthday_matches (r : RRule) (t : ℤ) : Bool :=
  r.bymonthday.isEmpty || r.bymonthday.any (fun d => d.matches t)

/-! ### BYDAY token parsing (src/ical/parse.rs, rrule.rs) -/

/-- `parse::week_day`: the seven two-letter codes. -/
def weekDayCode : List Char → Option Weekday
  | ['M', 'O'] => some .mon
  | ['T', 'U'] => some .tue
  | ['W', 'E'] => some .wed
  | ['T', 'H'] => some .thu
  | ['F', 'R'] => some .fri
  | ['S', 'A'] => some .sat
  | ['S', 'U'] => some .sun
  | _ => none

/-- Value of one ASCII digit. -/
def digitVal (c : Char) : Option ℕ :=
  if '0' ≤ c ∧ c ≤ '9' then some (c.toNat - '0'.toNat) else none

/-- Unsigned decimal digits (at least one) to a natural number. -/
def parseNatDigits (cs : List Char) : Option ℕ :=
  match cs with
  | [] => none
  | _ => cs.foldl (fun acc c => acc.bind fun a => (digitVal c).map fun d => a * 10 + d)
      (some 0)

/-- Rust `str::parse::<i32>`: optional sign, decimal digits, in-range for `i32`. -/
def parseI32 (cs : List Char) : Option ℤ :=
  match cs with
  | '+' :: rest => (parseNatDigits rest).bind fun v =>
      if (v : ℤ) ≤ 2147483647 then some (v : ℤ) else none
  | '-' :: rest => (parseNatDigits rest).bind fun v =>
      if (v : ℤ) ≤ 2147483648 then some (-(v : ℤ)) else none
  | _ => (parseNatDigits cs).bind fun v =>
      if (v : ℤ) ≤ 2147483647 then some (v : ℤ) else none

/-- `ByDayDay::parse`: a 2-character token is a bare weekday code; a longer
token splits into `<signed int>` plus the final 2-character weekday code, and
the integer is rejected when `n > 4 || n == 0`. -/
def ByDayDay.parse (cs : List Char) : Option ByDayDay :=
  if cs.length = 2 then (weekDayCode cs).map fun wd => ⟨wd, none⟩
  else if cs.length > 2 then
    let pre := cs.take (cs.length - 2)
    let wd := cs.drop (cs.length - 2)
    match parseI32 pre with
    | none => none
    | some n =>
      if n > 4 ∨ n = 0 then none
      else (weekDayCode wd).map fun w => ⟨w, some n⟩
  else none

/-! ### Events and the occurrence expander (src/ical/mod.rs)

The Rust `Event` also carries the raw `IcalEvent` property bag, which the
expander never interprets (it is only cloned along); it is omitted here.
The unbounded `loop`s of `next_weekly`/`next_monthly` are modelled with an
explicit fuel argument: a result of `none` means the fuel ran out with the
loop still running, `some none` models the Rust `return None`, and
`some (some e)` models `return Some(e)`. -/

/-- The `Event` struct (uid, start, end, created, optional rule). -/
structure Event where
  uid : String
  start_dt : ℤ
  end_dt : ℤ
  rrule : Option RRule
  created_dt : ℤ
  deriving DecidableEq

/-- `Event::starts_within`. -/
def Event.starts_within (e : Event) (start_date end_date : Option ℤ) : Bool :=
  match start_date, end_date with
  | none, none => true
  | some csd, none => decide (e.start_dt ≥ csd)
  | none, some ced => decide (e.start_dt ≤ ced)
  | some csd, some ced => decide (e.start_dt ≥ csd) && decide (e.start_dt ≤ ced)

/-- The `EventIter` struct: the original event, the last emitted start, and
the number of occurrences emitted so far. -/
structure EventIter where
  original_event : Event
  last_start_dt : ℤ
  count : ℕ
  deriving DecidableEq

/-- `EventIter::from(event)` (and `Event::recurring`). -/
def EventIter.of (e : Event) : EventIter := ⟨e, e.start_dt, 0⟩

/-- The occurrence built on acceptance of candidate `nd`: copy of the
original with `start_dt = nd` and `end_dt = original.end_dt + (nd −
original.start_dt)`. -/
def emitAt (e : Event) (nd : ℤ) : Event :=
  { e with start_dt := nd, end_dt := e.end_dt + (nd - e.start_dt) }

/-- One step of the weekly walk: advance one day; when the new date's weekday
equals `week_start`, additionally skip `7 * (interval - 1)` days. -/
def weeklyStep (r : RRule) (d : ℤ) : ℤ :=
  if weekdayOf (d + 86400) = r.week_start then
    d + 86400 + 86400 * (7 * ((r.interval : ℤ) - 1))
  else d + 86400

/-- The guard `Some(until_date) if next_date > *until_date` of the loops in
`next_weekly` / `next_monthly`: true when UNTIL is present and the candidate
exceeds it. -/
def pastUntil (u : Option ℤ) (t : ℤ) : Bool :=
  match u with
  | some u => decide (t > u)
  | none => false

/-- The `loop` inside `EventIter::next_weekly`, with fuel. -/
def nextWeeklyLoop (e : Event) (r : RRule) : ℕ → ℤ → Option (Option Event)
  | 0, _ => none
  | fuel + 1, cur =>
    if pastUntil r.untilDt (weeklyStep r cur) then some none
    else if r.byday_matches (weeklyStep r cur) then some (some (emitAt e (weeklyStep r cur)))
    else nextWeeklyLoop e r fuel (weeklyStep r cur)

/-- `EventIter::next_weekly`. -/
def EventIter.next_weekly (it : EventIter) (fuel : ℕ) : Option (Option Event) :=
  match it.original_event.rrule with
  | none => some none
  | some r => nextWeeklyLoop it.original_event r fuel it.last_start_dt

/-- One step of the monthly walk: advance one day; when the new date's
day-of-month is 1, additionally skip `interval - 1` whole months. -/
def monthlyStep (r : RRule) (d : ℤ) : ℤ :=
  if dayOf (d + 86400) = 1 then addMonths (d + 86400) (r.interval - 1) else d + 86400

/-- The `loop` inside `EventIter::next_monthly`, with fuel. -/
def nextMonthlyLoop (e : Event) (r : RRule) : ℕ → ℤ → Option (Option Event)
  | 0, _ => none
  | fuel + 1, cur =>
    if pastUntil r.untilDt (monthlyStep r cur) then some none
    else if r.bymonthday_matches (monthlyStep r cur) && r.byday_matches (monthlyStep r cur) then
      some (some (emitAt e (monthlyStep r cur)))
    else nextMonthlyLoop e r fuel (monthlyStep r cur)

/-- `EventIter::next_monthly`, including the BYMONTH / BYSETPOS bail-outs. -/
def EventIter.next_monthly (it : EventIter) (fuel : ℕ) : Option (Option Event) :=
  match it.original_event.rrule with
  | none => some none
  | some r =>
    if ¬ r.bymonth.isEmpty then some none
    else if ¬ r.bysetpos.isEmpty then some none
    else nextMonthlyLoop it.original_event r fuel it.last_start_dt

/-- The guard `Some(count) if self.count >= *count`: true when COUNT is
present and already reached. -/
def countReached (c : Option ℕ) (k : ℕ) : Bool :=
  match c with
  | some c => decide (k ≥ c)
  | none => false

/-- `Iterator::next` for `EventIter`.  Returns `none` when the inner walk ran
out of fuel, otherwise `some (produced item, new iterator state)`. -/
def EventIter.next (it : EventIter) (fuel : ℕ) : Option (Option Event × EventIter) :=
  match it.count with
  | 0 => some (some it.original_event, { it with count := 1 })
  | _ + 1 =>
    match it.original_event.rrule with
    | none => some (none, it)
    | some r =>
      if pastUntil r.untilDt it.last_start_dt then
        some (none, it)
      else if countReached r.count it.count then
        some (none, it)
      else
        match (match r.frequency with
          | .daily => some none
          | .weekly => it.next_weekly fuel
          | .monthly => it.next_monthly fuel
          | .yearly => some none
          | _ => some none : Option (Option Event)) with
        | none => none
        | some none => some (none, it)
        | some (some ev) =>
          some (some ev, { it with count := it.count + 1, last_start_dt := ev.start_dt })

/-- Pull up to `n` items from the iterator, collecting the produced events;
stops early (returning the finite list) when the iterator yields `None`, and
propagates fuel exhaustion as `none`. -/
def expand (fuel : ℕ) : EventIter → ℕ → Option (List Event)
  | _, 0 => some []
  | it, n + 1 =>
    match it.next fuel with
    | none => none
    | some (none, _) => some []
    | some (some e, it') => (expand fuel it' n).map fun l => e :: l

/-- The collection loop of `relevant_events` in src/main.rs:
`event.recurring().filter(|e| e.starts_within(&from, &Some(until))).collect()`.
`Iterator::filter` keeps pulling from the underlying iterator no matter what
the predicate says; only an underlying `None` ends the collection.  `none`
again means the pull budget `n` was exhausted with the loop still running. -/
def collectRelevant (from_date : Option ℤ) (until_date : ℤ) (fuel : ℕ) :
    EventIter → ℕ → Option (List Event)
  | _, 0 => none
  | it, n + 1 =>
    match it.next fuel with
    | none => none
    | some (none, _) => some []
    | some (some e, it') =>
      if e.starts_within from_date (some until_date) then
        (collectRelevant from_date until_date fuel it' n).map fun l => e :: l
      else collectRelevant from_date until_date fuel it' n

/-! ### Concrete scenarios used to settle the claims

Day numbers (days since 1970-01-01): 19723 = 2024-01-01 (a Monday),
19753 = 2024-01-31, 19776 = 2024-02-23 (a Friday), 19782 = 2024-02-29,
20094 = 2025-01-06 (a Monday), 20123 = 2025-02-04 (a Tuesday),
20126 = 2025-02-07 (a Friday). -/

/-- `FREQ=MONTHLY;BYMONTHDAY=-1;COUNT=2` as parsed by `RRule::from_str`. -/
def ruleMonthlyLast : RRule :=
  { frequency := .monthly, untilDt := none, count := some 2, interval := 1,
    week_start := .mon, byday := [], bymonthday := [⟨-1⟩],
    byweekno := [], bymonth := [], byyearday := [], bysetpos := [] }

/-- Base occurrence 2024-01-31 00:00–01:00 UTC with the monthly last-day rule. -/
def evMonthlyLast : Event :=
  { uid := "m", start_dt := 19753 * 86400, end_dt := 19753 * 86400 + 3600,
    rrule := some ruleMonthlyLast, created_dt := 0 }

/-- An open-ended weekly rule (no UNTIL, no COUNT, empty BYDAY). -/
def ruleOpenWeekly : RRule :=
  { frequency := .weekly, untilDt := none, count := none, interval := 1,
    week_start := .mon, byday := [], bymonthday := [],
    byweekno := [], bymonth := [], byyearday := [], bysetpos := [] }

/-- Base occurrence 2025-01-06 09:00–10:00 UTC with the open-ended weekly rule. -/
def evOpenWeekly : Event :=
  { uid := "w", start_dt := 20094 * 86400 + 32400, end_dt := 20094 * 86400 + 36000,
    rrule := some ruleOpenWeekly, created_dt := 0 }

/-- `FREQ=WEEKLY;COUNT=0` (COUNT is parsed as any non-negative integer). -/
def ruleCountZero : RRule :=
  { frequency := .weekly, untilDt := none, count := some 0, interval := 1,
    week_start := .mon, byday := [], bymonthday := [],
    byweekno := [], bymonth := [], byyearday := [], bysetpos := [] }

/-- Base occurrence carrying the COUNT=0 rule. -/
def evCountZero : Event :=
  { uid := "z", start_dt := 20094 * 86400, end_dt := 20094 * 86400 + 3600,
    rrule := some ruleCountZero, created_dt := 0 }

/-- Weekly rule with COUNT=2 and empty BYDAY. -/
def ruleCountTwo : RRule :=
  { frequency := .weekly, untilDt := none, count := some 2, interval := 1,
    week_start := .mon, byday := [], bymonthday := [],
    byweekno := [], bymonth := [], byyearday := [], bysetpos := [] }

/-- Base occurrence carrying the COUNT=2 rule. -/
def evCountTwo : Event :=
  { uid := "c", start_dt := 20094 * 86400, end_dt := 20094 * 86400 + 3600,
    rrule := some ruleCountTwo, created_dt := 0 }

/-- Start instant 2025-01-06T09:00:00Z of the UNTIL scenarios. -/
def tMon9 : ℤ := 20094 * 86400 + 32400

/-- Weekly rule with UNTIL exactly seven days after `tMon9`. -/
def ruleUntilWeek : RRule :=
  { frequency := .weekly, untilDt := some (tMon9 + 7 * 86400), count := none, interval := 1,
    week_start := .mon, byday := [], bymonthday := [],
    byweekno := [], bymonth := [], byyearday := [], bysetpos := [] }

/-- Base occurrence 2025-01-06 09:00–10:00 UTC with UNTIL = start + 7 days. -/
def evUntilWeek : Event :=
  { uid := "u", start_dt := tMon9, end_dt := tMon9 + 3600,
    rrule := some ruleUntilWeek, created_dt := 0 }

/-- Weekly rule whose UNTIL lies one day before the base start. -/
def ruleUntilPast : RRule :=
  { frequency := .weekly, untilDt := some (tMon9 - 86400), count := none, interval := 1,
    week_start := .mon, byday := [], bymonthday := [],
    byweekno := [], bymonth := [], byyearday := [], bysetpos := [] }

/-- Base occurrence whose start already exceeds its own UNTIL. -/
def evUntilPast : Event :=
  { uid := "p", start_dt := tMon9, end_dt := tMon9 + 3600,
    rrule := some ruleUntilPast, created_dt := 0 }

/-- Weekly rule selecting the second Tuesday (`BYDAY=2TU`). -/
def ruleSecondTue : RRule :=
  { frequency := .weekly, untilDt := none, count := none, interval := 1,
    week_start := .mon, byday := [⟨.tue, some 2⟩], bymonthday := [],
    byweekno := [], bymonth := [], byyearday := [], bysetpos := [] }

/-- Base occurrence 2025-01-06 09:00–10:00 carrying the `BYDAY=2TU` rule. -/
def evSecondTue : Event :=
  { uid := "s", start_dt := 20094 * 86400 + 32400, end_dt := 20094 * 86400 + 36000,
    rrule := some ruleSecondTue, created_dt := 0 }

/-- Weekly rule selecting a bare Tuesday (`BYDAY=TU`, no ordinal). -/
def ruleBareTue : RRule :=
  { frequency := .weekly, untilDt := none, count := none, interval := 1,
    week_start := .mon, byday := [⟨.tue, none⟩], bymonthday := [],
    byweekno := [], bymonth := [], byyearday := [], bysetpos := [] }

/-- Weekly rule with `INTERVAL=20871` (exactly the 146097-day Gregorian cycle
of week-aligned skipping) and `BYDAY=4TU`; parser-valid (interval positive,
ordinal magnitude 4). -/
def ruleCycleTrap : RRule :=
  { frequency := .weekly, untilDt := none, count := none, interval := 20871,
    week_start := .mon, byday := [⟨.tue, some 4⟩], bymonthday := [],
    byweekno := [], bymonth := [], byyearday := [], bysetpos := [] }

/-- Base occurrence 2024-01-01 (a Monday) carrying the cycle-trap rule. -/
def evCycleTrap : Event :=
  { uid := "t", start_dt := 19723 * 86400, end_dt := 19723 * 86400 + 3600,
    rrule := some ruleCycleTrap, created_dt := 0 }

/-- Weekly rule with a bare-Friday BYDAY member, used to witness termination. -/
def ruleBareFri : RRule :=
  { frequency := .weekly, untilDt := none, count := none, interval := 2,
    week_start := .mon, byday := [⟨.fri, none⟩], bymonthday := [],
    byweekno := [], bymonth := [], byyearday := [], bysetpos := [] }

/-- Base occurrence carrying the bare-Friday rule. -/
def evBareFri : Event :=
  { uid := "f", start_dt := 20094 * 86400, end_dt := 20094 * 86400 + 3600,
    rrule := some ruleBareFri, created_dt := 0 }

/-! ### Helper lemmas about the expander loops -/

/-- The event built on acceptance starts at the accepted candidate. -/
lemma emitAt_start (e : Event) (nd : ℤ) : (emitAt e nd).start_dt = nd := rfl

/-- Acceptance shifts start and end by the same amount. -/
lemma emitAt_duration (e : Event) (nd : ℤ) :
    (emitAt e nd).end_dt - (emitAt e nd).start_dt = e.end_dt - e.start_dt := by
  simp only [emitAt]
  omega

/-- A false `pastUntil` guard with UNTIL present bounds the candidate. -/
lemma pastUntil_false (u t : ℤ) (h : pastUntil (some u) t = false) : t ≤ u := by
  simp [pastUntil] at h
  exact h

/-- Any occurrence the weekly loop emits preserves the original duration. -/
lemma nextWeeklyLoop_duration (e : Event) (r : RRule) :
    ∀ (fuel : ℕ) (cur : ℤ) (ev : Event),
      nextWeeklyLoop e r fuel cur = some (some ev) →
      ev.end_dt - ev.start_dt = e.end_dt - e.start_dt := by
  intro fuel
  induction fuel with
  | zero => intro cur ev h; simp [nextWeeklyLoop] at h
  | succ n ih =>
    intro cur ev h
    unfold nextWeeklyLoop at h
    split at h
    · simp at h
    · split at h
      · simp only [Option.some.injEq] at h
        rw [← h]
        exact emitAt_duration _ _
      · exact ih _ _ h

/-- Any occurrence the monthly loop emits preserves the original duration. -/
lemma nextMonthlyLoop_duration (e : Event) (r : RRule) :
    ∀ (fuel : ℕ) (cur : ℤ) (ev : Event),
      nextMonthlyLoop e r fuel cur = some (some ev) →
      ev.end_dt - ev.start_dt = e.end_dt - e.start_dt := by
  intro fuel
  induction fuel with
  | zero => intro cur ev h; simp [nextMonthlyLoop] at h
  | succ n ih =>
    intro cur ev h
    unfold nextMonthlyLoop at h
    split at h
    · simp at h
    · split at h
      · simp only [Option.some.injEq] at h
        rw [← h]
        exact emitAt_duration _ _
      · exact ih _ _ h

/-- With UNTIL set, any occurrence the weekly loop emits starts no later than
UNTIL (the candidate is dropped by the `next_date > until_date` guard first). -/
lemma nextWeeklyLoop_le_until (e : Event) (r : RRule) (u : ℤ) (hu : r.untilDt = some u) :
    ∀ (fuel : ℕ) (cur : ℤ) (ev : Event),
      nextWeeklyLoop e r fuel cur = some (some ev) → ev.start_dt ≤ u := by
  intro fuel
  induction fuel with
  | zero => intro cur ev h; simp [nextWeeklyLoop] at h
  | succ n ih =>
    intro cur ev h
    unfold nextWeeklyLoop at h
    split at h
    · simp at h
    · next hpast =>
      rw [hu] at hpast
      split at h
      · simp only [Option.some.injEq] at h
        rw [← h, emitAt_start]
        exact pastUntil_false _ _ (by simpa using hpast)
      · exact ih _ _ h

/-- With UNTIL set, any occurrence the monthly loop emits starts no later
than UNTIL. -/
lemma nextMonthlyLoop_le_until (e : Event) (r : RRule) (u : ℤ) (hu : r.untilDt = some u) :
    ∀ (fuel : ℕ) (cur : ℤ) (ev : Event),
      nextMonthlyLoop e r fuel cur = some (some ev) → ev.start_dt ≤ u := by
  intro fuel
  induction fuel with
  | zero => intro cur ev h; simp [nextMonthlyLoop] at h
  | succ n ih =>
    intro cur ev h
    unfold nextMonthlyLoop at h
    split at h
    · simp at h
    · next hpast =>
      rw [hu] at hpast
      split at h
      · simp only [Option.some.injEq] at h
        rw [← h, emitAt_start]
        exact pastUntil_false _ _ (by simpa using hpast)
      · exact ih _ _ h

/-- An event produced by `next` is either the base occurrence (first pull) or
was emitted by the weekly or monthly loop. -/
lemma next_emits (it : EventIter) (fuel : ℕ) (ev : Event) (it2 : EventIter)
    (h : it.next fuel = some (some ev, it2)) :
    (it.count = 0 ∧ ev = it.original_event) ∨
    (∃ r, it.original_event.rrule = some r ∧
      (nextWeeklyLoop it.original_event r fuel it.last_start_dt = some (some ev) ∨
       nextMonthlyLoop it.original_event r fuel it.last_start_dt = some (some ev))) := by
  unfold EventIter.next at h
  split at h
  · next hc =>
    left
    simp only [Option.some.injEq, Prod.mk.injEq] at h
    exact ⟨hc, h.1.symm⟩
  · right
    split at h
    · simp at h
    · next r heq =>
      split at h
      · simp at h
      · split at h
        · simp at h
        · split at h
          · exact absurd h (by simp)
          · simp at h
          · next ev0 hinner =>
            simp only [Option.some.injEq, Prod.mk.injEq] at h
            obtain ⟨h1, -⟩ := h
            subst h1
            refine ⟨r, heq, ?_⟩
            split at hinner
            · simp at hinner
            · left
              unfold EventIter.next_weekly at hinner
              rw [heq] at hinner
              exact hinner
            · right
              unfold EventIter.next_monthly at hinner
              rw [heq] at hinner
              simp only [] at hinner
              split at hinner
              · simp at hinner
              · split at hinner
                · simp at hinner
                · exact hinner
            · simp at hinner
            · simp at hinner

/-! ### Claim theorems -/

/-- C8: For every base occurrence and every rule content (including no rule,
unsupported frequencies, and any combination of by-parts and bounds), the
first element of the expansion equals the base occurrence exactly: the first
`next` on a fresh iterator returns the original event unchanged, whatever the
rule is. -/
theorem first_element_is_base (e : Event) (fuel : ℕ) :
    (EventIter.of e).next fuel = some (some e, ⟨e, e.start_dt, 1⟩) := rfl

/-- C9: Every occurrence produced by the expander — the base occurrence and
every derived occurrence emitted by Weekly or Monthly expansion — has
duration `end − start` equal to the base occurrence's duration; the expander
never extends or shrinks it. -/
theorem duration_preserved (it : EventIter) (fuel : ℕ) (ev : Event) (it2 : EventIter)
    (h : it.next fuel = some (some ev, it2)) :
    ev.end_dt - ev.start_dt = it.original_event.end_dt - it.original_event.start_dt := by
  rcases next_emits it fuel ev it2 h with ⟨-, hev⟩ | ⟨r, -, hw | hm⟩
  · rw [hev]
  · exact nextWeeklyLoop_duration _ _ _ _ _ hw
  · exact nextMonthlyLoop_duration _ _ _ _ _ hm

/-- Witness for C9: the second occurrence of the UNTIL scenario (derived,
one day after the base) has the base's one-hour duration. -/
theorem duration_preserved_witness :
    (emitAt evUntilWeek (tMon9 + 86400)).end_dt - (emitAt evUntilWeek (tMon9 + 86400)).start_dt =
      evUntilWeek.end_dt - evUntilWeek.start_dt :=
  duration_preserved ⟨evUntilWeek, tMon9, 1⟩ 1 (emitAt evUntilWeek (tMon9 + 86400))
    ⟨evUntilWeek, tMon9 + 86400, 2⟩ (by decide)

/-- C1: the claim fails on the code.  2024-02-23 is not the last day of
February 2024 (the leap year gives `days_in_month − day = 29 − 23 = 6 ≠ 0 =
|−1| − 1`), yet `ByMonthDayDay::matches` accepts it for the selector −1,
because the code divides the distance from the month end by 7; consequently
expanding base 2024-01-31 under `FREQ=MONTHLY;BYMONTHDAY=-1;COUNT=2` yields
2024-01-31 and 2024-02-23 (day numbers 19753 and 19776), not 2024-02-29 as
the spec's own test requires. -/
theorem bymonthday_negative_matches_week_window :
    ByMonthDayDay.matches ⟨-1⟩ (19776 * 86400) = true ∧
    dayOf (19776 * 86400) = 23 ∧
    monthDaysOf (19776 * 86400) = 29 ∧
    ¬ (monthDaysOf (19776 * 86400) - dayOf (19776 * 86400) = |(-1 : ℤ)| - 1) ∧
    (expand 40 (EventIter.of evMonthlyLast) 3).map (List.map Event.start_dt) =
      some [19753 * 86400, 19776 * 86400] := by
  decide

/-- C2: the claim fails on the code.  2025-02-07 is a Friday with
day-of-month 7, hence the 1st Friday of its month by the claim's formula
`floor((day−1)/7)+1 = 1`; but `ByDayDay::matches` computes `day/7 + 1 = 2`,
so the selector `1FR` rejects the date and `2FR` accepts it. -/
theorem byday_positive_ordinal_off_by_one :
    weekdayOf (20126 * 86400) = .fri ∧
    dayOf (20126 * 86400) = 7 ∧
    (dayOf (20126 * 86400) - 1) / 7 + 1 = 1 ∧
    ByDayDay.matches ⟨.fri, some 1⟩ (20126 * 86400) = false ∧
    ByDayDay.matches ⟨.fri, some 2⟩ (20126 * 86400) = true := by
  decide

/-- Every `next` on the open-ended weekly event either runs out of fuel or
produces another occurrence; it never returns the iterator-finished `None`. -/
lemma openWeekly_step (it : EventIter) (h : it.original_event = evOpenWeekly) (fuel : ℕ) :
    it.next fuel = none ∨
    ∃ ev it2, it.next fuel = some (some ev, it2) ∧ it2.original_event = evOpenWeekly := by
  obtain ⟨oe, last, cnt⟩ := it
  simp only [EventIter.original_event] at h
  subst h
  cases cnt with
  | zero =>
    refine Or.inr ⟨evOpenWeekly, ⟨evOpenWeekly, last, 1⟩, ?_, ?_⟩ <;> rfl
  | succ k =>
    cases fuel with
    | zero => exact Or.inl rfl
    | succ f =>
      refine Or.inr ⟨emitAt evOpenWeekly (weeklyStep ruleOpenWeekly last),
        ⟨evOpenWeekly, (emitAt evOpenWeekly (weeklyStep ruleOpenWeekly last)).start_dt, k + 2⟩,
        ?_, ?_⟩
      · show EventIter.next _ _ = _
        unfold EventIter.next EventIter.next_weekly nextWeeklyLoop
        simp [evOpenWeekly, ruleOpenWeekly, pastUntil, countReached, RRule.byday_matches]
      · rfl

/-- The filter-based collection of the open-ended weekly event never
finishes, for any pull budget and any window bound. -/
lemma collectRelevant_openWeekly (u : ℤ) : ∀ (n fuel : ℕ) (it : EventIter),
    it.original_event = evOpenWeekly → collectRelevant none u fuel it n = none := by
  intro n
  induction n with
  | zero => intro fuel it h; rfl
  | succ m ih =>
    intro fuel it h
    unfold collectRelevant
    rcases openWeekly_step it h fuel with hn | ⟨ev, it2, hs, h2⟩
    · rw [hn]
    · rw [hs]
      split
      · rfl
      · rename_i heq
        simp at heq
      · rename_i e it3 heq
        simp only [Option.some.injEq, Prod.mk.injEq] at heq
        obtain ⟨-, hit⟩ := heq
        subst hit
        split
        · rw [ih fuel it2 h2]
          rfl
        · exact ih fuel it2 h2

/-- C3: the claim fails on the code.  `relevant_events` filters the
expansion with `Iterator::filter`, which never stops pulling; for the
open-ended weekly event (no UNTIL, no COUNT) every pull produces another
occurrence, so the collection loop never finishes no matter how many pulls
`n` it is given — occurrences whose starts exceed the window's upper bound
`u` are discarded but pulling continues. -/
theorem relevant_events_filter_never_stops (n fuel : ℕ) (u : ℤ) :
    collectRelevant none u fuel (EventIter.of evOpenWeekly) n = none :=
  collectRelevant_openWeekly u n fuel _ rfl

/-- Unfolding `expand` over a productive pull. -/
lemma expand_cons (fuel : ℕ) (it : EventIter) (n : ℕ) (ev : Event) (it2 : EventIter)
    (h : it.next fuel = some (some ev, it2)) :
    expand fuel it (n + 1) = (expand fuel it2 n).map (fun l => ev :: l) := by
  conv_lhs => rw [expand]
  rw [h]

/-- Unfolding `expand` when the iterator reports it is finished. -/
lemma expand_finished (fuel : ℕ) (it : EventIter) (n : ℕ) (it2 : EventIter)
    (h : it.next fuel = some (none, it2)) :
    expand fuel it (n + 1) = some [] := by
  conv_lhs => rw [expand]
  rw [h]

/-- C5 counterexample: with COUNT = 0 (a non-negative COUNT, no UNTIL and
candidates to spare) the expansion yields 1 occurrence, not 0: the base is
emitted before the count guard is ever consulted. -/
theorem count_zero_yields_base :
    ruleCountZero.count = some 0 ∧
    (expand 5 (EventIter.of evCountZero) 3).map List.length = some 1 := by
  decide

/-- With empty BYDAY and no UNTIL the weekly loop accepts its first candidate. -/
lemma nextWeeklyLoop_vacuous (e : Event) (r : RRule) (hb : r.byday = [])
    (hu : r.untilDt = none) (f : ℕ) (cur : ℤ) :
    nextWeeklyLoop e r (f + 1) cur = some (some (emitAt e (weeklyStep r cur))) := by
  unfold nextWeeklyLoop
  simp [pastUntil, hu, RRule.byday_matches, hb]

/-- A non-first pull of a weekly no-UNTIL empty-BYDAY rule whose COUNT is not
yet reached emits the next candidate and advances the iterator state. -/
lemma next_weekly_vacuous_step (e : Event) (r : RRule) (k : ℕ) (last : ℤ) (f : ℕ)
    (he : e.rrule = some r) (hf : r.frequency = .weekly) (hb : r.byday = [])
    (hu : r.untilDt = none) (hcr : countReached r.count (k + 1) = false) :
    EventIter.next ⟨e, last, k + 1⟩ (f + 1) =
      some (some (emitAt e (weeklyStep r last)), ⟨e, weeklyStep r last, k + 2⟩) := by
  unfold EventIter.next EventIter.next_weekly
  simp only [he, hu, hf]
  rw [nextWeeklyLoop_vacuous e r hb hu]
  simp [pastUntil, hcr, emitAt]

/-- A non-first pull with the COUNT guard already reached yields `None`. -/
lemma next_count_finished (e : Event) (r : RRule) (k : ℕ) (last : ℤ) (f : ℕ)
    (he : e.rrule = some r) (hu : r.untilDt = none)
    (hcr : countReached r.count (k + 1) = true) :
    EventIter.next ⟨e, last, k + 1⟩ f = some (none, ⟨e, last, k + 1⟩) := by
  unfold EventIter.next
  simp only [he, hu]
  simp [pastUntil, hcr]

/-- Counting invariant: from a state that has already emitted `k ≥ 1` of the
`c` counted occurrences, exactly `c − k` more are produced. -/
lemma expand_vacuous_len (e : Event) (r : RRule) (c : ℕ)
    (he : e.rrule = some r) (hf : r.frequency = .weekly) (hb : r.byday = [])
    (hu : r.untilDt = none) (hc : r.count = some c) :
    ∀ (m k : ℕ) (last : ℤ), 1 ≤ k → k + m = c → ∀ f,
      (expand (f + 1) ⟨e, last, k⟩ (m + 1)).map List.length = some m := by
  intro m
  induction m with
  | zero =>
    intro k last hk1 hkc f
    obtain ⟨k', rfl⟩ : ∃ k', k = k' + 1 := ⟨k - 1, by omega⟩
    rw [expand_finished _ _ _ _ (next_count_finished e r k' last (f + 1) he hu
      (by simp only [countReached, hc]; simp; omega))]
    rfl
  | succ m ih =>
    intro k last hk1 hkc f
    obtain ⟨k', rfl⟩ : ∃ k', k = k' + 1 := ⟨k - 1, by omega⟩
    rw [expand_cons _ _ _ _ _ (next_weekly_vacuous_step e r k' last f he hf hb hu
      (by simp only [countReached, hc]; simp; omega))]
    have hih := ih (k' + 2) (weeklyStep r last) (by omega) (by omega) f
    cases hx : expand (f + 1) (⟨e, weeklyStep r last, k' + 2⟩ : EventIter) (m + 1) with
    | none => rw [hx] at hih; simp at hih
    | some l =>
      rw [hx] at hih
      simp only [Option.map_some', Option.some.injEq] at hih ⊢
      simp [hih]

/-- C5 amended: for every rule with COUNT = c ≥ 1 set and no UNTIL (weekly
frequency with empty BYDAY supplies a matching candidate at every step, so
candidates are never exhausted), the expansion yields exactly c occurrences
in total, the base occurrence counting as the first.  (As stated the claim
fails for COUNT = 0, which still yields the base occurrence.) -/
theorem count_bounded_expansion_length (e : Event) (r : RRule) (c : ℕ)
    (he : e.rrule = some r) (hf : r.frequency = .weekly) (hb : r.byday = [])
    (hu : r.untilDt = none) (hc : r.count = some c) (hc1 : 1 ≤ c) (f : ℕ) :
    (expand (f + 1) (EventIter.of e) (c + 1)).map List.length = some c := by
  obtain ⟨c', rfl⟩ : ∃ c', c = c' + 1 := ⟨c - 1, by omega⟩
  rw [show (c' + 1 + 1) = (c' + 1) + 1 from rfl]
  rw [expand_cons (f + 1) (EventIter.of e) (c' + 1) e ⟨e, e.start_dt, 1⟩ rfl]
  have hlen := expand_vacuous_len e r (c' + 1) he hf hb hu hc c' 1 e.start_dt
    (by omega) (by omega) f
  cases hx : expand (f + 1) (⟨e, e.start_dt, 1⟩ : EventIter) (c' + 1) with
  | none => rw [hx] at hlen; simp at hlen
  | some l =>
    rw [hx] at hlen
    simp only [Option.map_some', Option.some.injEq] at hlen ⊢
    simp [hlen]

/-- Witness for C5 amended: COUNT = 2 yields exactly 2 occurrences. -/
theorem count_bounded_expansion_length_witness :
    (expand 1 (EventIter.of evCountTwo) 3).map List.length = some 2 :=
  count_bounded_expansion_length evCountTwo ruleCountTwo 2 rfl rfl rfl rfl rfl
    (by decide) 0

/-- C6 counterexample: the base occurrence is emitted unconditionally by the
first pull, even when its start already exceeds UNTIL — so "no occurrence
emitted by the expander has a start instant strictly greater than UNTIL" is
false as stated for the base element. -/
theorem base_emitted_beyond_until :
    ruleUntilPast.untilDt = some (tMon9 - 86400) ∧
    evUntilPast.start_dt > tMon9 - 86400 ∧
    ((EventIter.of evUntilPast).next 1).map Prod.fst = some (some evUntilPast) := by
  decide

/-- C6 amended: with UNTIL set, no derived occurrence (any pull after the
first; the unconditional base element is excluded) has a start instant
strictly greater than UNTIL, and a candidate whose start equals UNTIL exactly
is emitted: in the concrete scenario the last expanded start equals UNTIL. -/
theorem derived_occurrences_bounded_by_until :
    (∀ (it : EventIter) (r : RRule) (u : ℤ) (fuel : ℕ) (ev : Event) (it2 : EventIter),
      it.original_event.rrule = some r → r.untilDt = some u → 1 ≤ it.count →
      it.next fuel = some (some ev, it2) → ev.start_dt ≤ u) ∧
    (expand 2 (EventIter.of evUntilWeek) 9).map (List.map Event.start_dt) =
      some [tMon9, tMon9 + 86400, tMon9 + 2 * 86400, tMon9 + 3 * 86400, tMon9 + 4 * 86400,
        tMon9 + 5 * 86400, tMon9 + 6 * 86400, tMon9 + 7 * 86400] ∧
    ruleUntilWeek.untilDt = some (tMon9 + 7 * 86400) := by
  refine ⟨?_, by decide, by decide⟩
  intro it r u fuel ev it2 hr hu hcnt h
  rcases next_emits it fuel ev it2 h with ⟨hc0, -⟩ | ⟨r2, hr2, hw | hm⟩
  · omega
  · rw [hr] at hr2
    obtain rfl : r = r2 := by injection hr2
    exact nextWeeklyLoop_le_until _ _ _ hu _ _ _ hw
  · rw [hr] at hr2
    obtain rfl : r = r2 := by injection hr2
    exact nextMonthlyLoop_le_until _ _ _ hu _ _ _ hm

/-- Witness for C6 amended: a concrete derived occurrence obeys the bound. -/
theorem derived_occurrences_bounded_by_until_witness :
    (emitAt evUntilWeek (tMon9 + 86400)).start_dt ≤ tMon9 + 7 * 86400 :=
  derived_occurrences_bounded_by_until.1 ⟨evUntilWeek, tMon9, 1⟩ ruleUntilWeek
    (tMon9 + 7 * 86400) 1 (emitAt evUntilWeek (tMon9 + 86400)) ⟨evUntilWeek, tMon9 + 86400, 2⟩
    rfl rfl (by decide) (by decide)

/-- C4 counterexample: under the `BYDAY=2TU` weekly rule, 2025-02-04 is a
Tuesday — its weekday is the weekday of a byday member — yet the acceptance
predicate used by Weekly expansion rejects it (the member's ordinal is
checked: 2025-02-04 has day-of-month 4, not in the code's second-Tuesday
window), and the weekly walk given exactly enough fuel to inspect that
candidate does not accept it.  Acceptance therefore does not depend on
weekday membership only. -/
theorem weekly_byday_ordinal_not_weekday_only :
    weekdayOf (20123 * 86400) = .tue ∧
    ruleSecondTue.byday.map ByDayDay.week_day = [.tue] ∧
    ruleSecondTue.byday_matches (20123 * 86400) = false ∧
    nextWeeklyLoop evSecondTue ruleSecondTue 1 (20123 * 86400 - 86400) = none := by
  decide

/-- C4 amended: a Weekly candidate is accepted iff byday is empty (vacuous
match) or some member fully matches; when no member carries an ordinal this
is exactly weekday membership.  (For members with an ordinal the positional
part is checked too, contrary to the claim.) -/
theorem byday_matches_weekday_membership (r : RRule) (t : ℤ)
    (h : ∀ m ∈ r.byday, m.n = none) :
    r.byday_matches t = true ↔
      (r.byday = [] ∨ ∃ m ∈ r.byday, m.week_day = weekdayOf t) := by
  have hmem : ∀ m ∈ r.byday, (ByDayDay.matches m t = true ↔ m.week_day = weekdayOf t) := by
    intro m hm
    unfold ByDayDay.matches
    rw [h m hm]
    by_cases hw : weekdayOf t = m.week_day
    · simp [hw, eq_comm]
    · simp only [if_neg hw, Bool.false_eq_true, false_iff]
      exact fun hx => hw hx.symm
  simp only [RRule.byday_matches, Bool.or_eq_true, List.any_eq_true, List.isEmpty_iff]
  constructor
  · rintro (h1 | ⟨m, hm, hmt⟩)
    · exact Or.inl h1
    · exact Or.inr ⟨m, hm, (hmem m hm).mp hmt⟩
  · rintro (h1 | ⟨m, hm, hmt⟩)
    · exact Or.inl h1
    · exact Or.inr ⟨m, hm, (hmem m hm).mpr hmt⟩

/-- Witness for C4 amended at the ordinal-free rule `BYDAY=TU` on 2025-02-04. -/
theorem byday_matches_weekday_membership_witness :
    ruleBareTue.byday_matches (20123 * 86400) = true ↔
      (ruleBareTue.byday = [] ∨
        ∃ m ∈ ruleBareTue.byday, m.week_day = weekdayOf (20123 * 86400)) :=
  byday_matches_weekday_membership ruleBareTue (20123 * 86400) (by decide)

/-- C7 counterexample: the token `-5FR` — a signed ordinal of magnitude 5 —
parses successfully (to Friday with ordinal −5) instead of returning an
error: the code checks `n > 4 || n == 0` and never rejects ordinals below
−4. -/
theorem byday_parse_accepts_minus_five :
    ByDayDay.parse ['-', '5', 'F', 'R'] = some ⟨.fri, some (-5)⟩ := by
  decide

/-- C7 amended: parsing `<signed int><weekday code>` succeeds iff the
ordinal is nonzero and at most 4; magnitudes greater than 4 are rejected
only on the positive side, while negative ordinals of any magnitude
(within `i32`) are accepted. -/
theorem byday_parse_ordinal_condition (pre wd : List Char) (n : ℤ) (w : Weekday)
    (hp : parseI32 pre = some n) (hw : weekDayCode wd = some w) (hwl : wd.length = 2)
    (hpl : 1 ≤ pre.length) :
    ByDayDay.parse (pre ++ wd) = (if n > 4 ∨ n = 0 then none else some ⟨w, some n⟩) := by
  unfold ByDayDay.parse
  have hlen : (pre ++ wd).length = pre.length + 2 := by simp [hwl]
  rw [hlen]
  rw [if_neg (by omega : ¬(pre.length + 2 = 2))]
  rw [if_pos (by omega : pre.length + 2 > 2)]
  rw [Nat.add_sub_cancel]
  rw [List.take_left, List.drop_left]
  simp only [hp, hw]
  split <;> simp

/-- Witness for C7 amended at the token `-5FR`. -/
theorem byday_parse_ordinal_condition_witness :
    ByDayDay.parse (['-', '5'] ++ ['F', 'R']) =
      (if (-5 : ℤ) > 4 ∨ (-5 : ℤ) = 0 then none else some ⟨.fri, some (-5)⟩) :=
  byday_parse_ordinal_condition ['-', '5'] ['F', 'R'] (-5) .fri (by decide) (by decide)
    (by decide) (by decide)

/-- The weekday of a day number in terms of its from-Monday index. -/
lemma weekdayOfZ_eq_iff (z : ℤ) (w : Weekday) :
    weekdayOfZ z = w ↔ weekdayNumZ z = w.idx := by
  unfold weekdayOfZ weekdayNumZ
  have h0 : 0 ≤ (z + 3) % 7 := Int.emod_nonneg _ (by norm_num)
  have h7 : (z + 3) % 7 < 7 := Int.emod_lt_of_pos _ (by norm_num)
  obtain ⟨n, hn⟩ : ∃ n : ℕ, (z + 3) % 7 = (n : ℤ) :=
    ⟨((z + 3) % 7).toNat, (Int.toNat_of_nonneg h0).symm⟩
  rw [hn]
  have hn7 : n < 7 := by omega
  simp only [Int.toNat_natCast]
  interval_cases n <;> cases w <;> simp [Weekday.ofIdx, Weekday.idx]

/-- Adding whole days to an instant shifts its day number accordingly. -/
lemma dayNum_add_mul (t m : ℤ) : dayNum (t + 86400 * m) = dayNum t + m := by
  unfold dayNum
  rw [mul_comm]
  exact Int.add_mul_ediv_right t m (by norm_num)

/-- A weekly step advances the day number by one day plus a whole number of
weeks, so candidate weekdays advance cyclically by one per step. -/
lemma weeklyStep_dayNum (r : RRule) (cur : ℤ) :
    ∃ k : ℤ, dayNum (weeklyStep r cur) = dayNum cur + 1 + 7 * k := by
  unfold weeklyStep
  split
  · refine ⟨(r.interval : ℤ) - 1, ?_⟩
    rw [show cur + 86400 + 86400 * (7 * ((r.interval : ℤ) - 1)) =
      cur + 86400 * (1 + 7 * ((r.interval : ℤ) - 1)) from by ring]
    rw [dayNum_add_mul]
    ring
  · refine ⟨0, ?_⟩
    rw [show cur + 86400 = cur + 86400 * 1 from by ring]
    rw [dayNum_add_mul]
    ring

/-- The from-Monday index is between 0 and 6. -/
lemma weekday_idx_bounds (w : Weekday) : 0 ≤ w.idx ∧ w.idx < 7 := by
  cases w <;> simp [Weekday.idx]

/-- When the next candidate's weekday equals that of an ordinal-free byday
member, the byday predicate accepts it. -/
lemma weeklyStep_matches_of_gap0 (r : RRule) (m : ByDayDay) (hm : m ∈ r.byday)
    (hmn : m.n = none) (cur : ℤ)
    (h0 : (m.week_day.idx - (dayNum cur + 4)) % 7 = 0) :
    r.byday_matches (weeklyStep r cur) = true := by
  have hwd : weekdayOf (weeklyStep r cur) = m.week_day := by
    obtain ⟨k, hk⟩ := weeklyStep_dayNum r cur
    unfold weekdayOf
    rw [weekdayOfZ_eq_iff]
    unfold weekdayNumZ
    rw [hk]
    have hb := weekday_idx_bounds m.week_day
    omega
  have hmatch : ByDayDay.matches m (weeklyStep r cur) = true := by
    unfold ByDayDay.matches
    rw [if_pos hwd, hmn]
  unfold RRule.byday_matches
  rw [Bool.or_eq_true, List.any_eq_true]
  exact Or.inr ⟨m, hm, hmatch⟩

/-- With empty BYDAY one candidate decides the weekly loop. -/
lemma weeklyLoop_decides_empty (e : Event) (r : RRule) (hb : r.byday = [])
    (f : ℕ) (cur : ℤ) : nextWeeklyLoop e r (f + 1) cur ≠ none := by
  unfold nextWeeklyLoop
  split
  · simp
  · rw [if_pos (by simp [RRule.byday_matches, hb])]
    simp

/-- With an ordinal-free member whose weekday is `b` steps ahead of the next
candidate (cyclically), `b + 1` candidates decide the weekly loop. -/
lemma weeklyLoop_reaches (e : Event) (r : RRule) (m : ByDayDay) (hm : m ∈ r.byday)
    (hmn : m.n = none) :
    ∀ (b : ℕ) (cur : ℤ), (m.week_day.idx - (dayNum cur + 4)) % 7 ≤ (b : ℤ) →
      nextWeeklyLoop e r (b + 1) cur ≠ none := by
  intro b
  induction b with
  | zero =>
    intro cur hgap
    have h0 : (m.week_day.idx - (dayNum cur + 4)) % 7 = 0 := by
      have := Int.emod_nonneg (m.week_day.idx - (dayNum cur + 4)) (by norm_num : (7:ℤ) ≠ 0)
      omega
    unfold nextWeeklyLoop
    split
    · simp
    · rw [if_pos (weeklyStep_matches_of_gap0 r m hm hmn cur h0)]
      simp
  | succ b ih =>
    intro cur hgap
    by_cases h0 : (m.week_day.idx - (dayNum cur + 4)) % 7 = 0
    · unfold nextWeeklyLoop
      split
      · simp
      · rw [if_pos (weeklyStep_matches_of_gap0 r m hm hmn cur h0)]
        simp
    · unfold nextWeeklyLoop
      split
      · simp
      · split
        · simp
        · apply ih
          obtain ⟨k, hk⟩ := weeklyStep_dayNum r cur
          rw [hk]
          have h7 : 0 ≤ (m.week_day.idx - (dayNum cur + 4)) % 7 :=
            Int.emod_nonneg _ (by norm_num)
          omega

/-- Seven candidates always decide the weekly loop when byday is empty or
has an ordinal-free member. -/
lemma weeklyLoop_seven (e : Event) (r : RRule)
    (h : r.byday = [] ∨ ∃ m ∈ r.byday, m.n = none) (cur : ℤ) :
    nextWeeklyLoop e r 7 cur ≠ none := by
  rcases h with hb | ⟨m, hm, hmn⟩
  · exact weeklyLoop_decides_empty e r hb 6 cur
  · apply weeklyLoop_reaches e r m hm hmn 6 cur
    have h0 : 0 ≤ (m.week_day.idx - (dayNum cur + 4)) % 7 :=
      Int.emod_nonneg _ (by norm_num)
    have h7 : (m.week_day.idx - (dayNum cur + 4)) % 7 < 7 :=
      Int.emod_lt_of_pos _ (by norm_num)
    omega

/-- C10 amended: for every Weekly rule whose byday is empty or contains at
least one member without an ordinal, every individual call to `next()`
terminates — the day-by-day walk decides (accepted candidate or candidate
past UNTIL) within at most 7 candidates, regardless of interval, week_start,
or whether the rule is open-ended.  (As stated, with every member carrying an
ordinal — even of magnitude at most 4 — the claim fails; see the
counterexample.) -/
theorem weekly_next_terminates_with_plain_member (it : EventIter) (r : RRule)
    (hr : it.original_event.rrule = some r) (hf : r.frequency = .weekly)
    (hb : r.byday = [] ∨ ∃ m ∈ r.byday, m.n = none) :
    it.next 7 ≠ none := by
  obtain ⟨oe, last, cnt⟩ := it
  simp only [EventIter.original_event] at hr
  cases cnt with
  | zero => simp [EventIter.next]
  | succ k =>
    unfold EventIter.next
    simp only [hr, hf]
    split
    · simp
    · split
      · simp
      · unfold EventIter.next_weekly
        simp only [EventIter.original_event, hr]
        cases hres : nextWeeklyLoop oe r 7 last with
        | none => exact absurd hres (weeklyLoop_seven oe r hb last)
        | some o =>
          cases o <;> simp

/-- Witness for C10 amended: the bare-Friday interval-2 rule's iterator
decides within fuel 7. -/
theorem weekly_next_terminates_witness : (EventIter.of evBareFri).next 7 ≠ none :=
  weekly_next_terminates_with_plain_member (EventIter.of evBareFri) ruleBareFri rfl rfl
    (Or.inr ⟨⟨.fri, none⟩, by decide, rfl⟩)

/-- The day-of-era is invariant under shifts by whole 146097-day (400-year)
Gregorian cycles. -/
lemma doeOf_add_cycle (z k : ℤ) : doeOf (z + 146097 * k) = doeOf z := by
  unfold doeOf
  rw [show z + 146097 * k + 719468 = z + 719468 + 146097 * k from by ring]
  exact Int.add_mul_emod_self_left (z + 719468) 146097 k

/-- The day of month is a function of the day-of-era alone, hence invariant
under 400-year shifts. -/
lemma dayOfMonthZ_add_cycle (z k : ℤ) : dayOfMonthZ (z + 146097 * k) = dayOfMonthZ z := by
  unfold dayOfMonthZ
  rw [doeOf_add_cycle]

/-- The day number of a midnight instant. -/
lemma dayNum_exact (a : ℤ) : dayNum (a * 86400) = a := by
  unfold dayNum
  exact Int.mul_ediv_cancel a (by norm_num)

/-- Under the cycle-trap rule, no visited candidate ever matches `4TU`: the
only Tuesday among the seven visited day-residues is the 2nd of its month
(periodicity reduces it to 2024-01-02), and the code requires `day/7 + 1 =
4`. -/
lemma cycleTrap_matches_eval (j c : ℤ) (hc0 : 0 ≤ c) (hc : c ≤ 6) :
    ruleCycleTrap.byday_matches ((19723 + 146097 * j + c) * 86400) = false := by
  have hsingle : ∀ x : ℤ, ruleCycleTrap.byday_matches x =
      ByDayDay.matches ⟨.tue, some 4⟩ x := by
    intro x
    simp [RRule.byday_matches, show ruleCycleTrap.byday = [⟨.tue, some 4⟩] from rfl]
  rw [hsingle]
  unfold ByDayDay.matches
  by_cases hw : weekdayOf ((19723 + 146097 * j + c) * 86400) = Weekday.tue
  · rw [if_pos hw]
    have hc1 : c = 1 := by
      unfold weekdayOf at hw
      rw [weekdayOfZ_eq_iff] at hw
      rw [dayNum_exact] at hw
      unfold weekdayNumZ at hw
      simp only [Weekday.idx] at hw
      omega
    subst hc1
    have hday : dayOf ((19723 + 146097 * j + 1) * 86400) = 2 := by
      unfold dayOf
      rw [dayNum_exact]
      rw [show (19723 + 146097 * j + 1 : ℤ) = 19724 + 146097 * j from by ring]
      rw [dayOfMonthZ_add_cycle]
      decide
    simp only [hday]
    rw [if_pos (by norm_num : (4:ℤ) > 0)]
    decide
  · rw [if_neg hw]

/-- One weekly step of the cycle-trap walk: day-residues 0–5 advance by one
day; residue 6 hits the Monday week-start and jumps `7·20870` further days,
exactly one full 146097-day Gregorian cycle after the previous Monday. -/
lemma cycleTrap_step (j i : ℤ) (h0 : 0 ≤ i) (hi : i ≤ 6) :
    weeklyStep ruleCycleTrap ((19723 + 146097 * j + i) * 86400) =
      (if i ≤ 5 then (19723 + 146097 * j + (i + 1)) * 86400
       else (19723 + 146097 * (j + 1) + 0) * 86400) := by
  unfold weeklyStep
  rw [show (19723 + 146097 * j + i) * 86400 + 86400 =
    (19723 + 146097 * j + (i + 1)) * 86400 from by ring]
  have hwk : weekdayOf ((19723 + 146097 * j + (i + 1)) * 86400) = ruleCycleTrap.week_start ↔
      (19723 + 146097 * j + (i + 1) + 3) % 7 = 0 := by
    unfold weekdayOf
    rw [weekdayOfZ_eq_iff, dayNum_exact]
    unfold weekdayNumZ
    rw [show ruleCycleTrap.week_start = Weekday.mon from rfl]
    simp [Weekday.idx]
  by_cases h5 : i ≤ 5
  · rw [if_pos h5]
    rw [if_neg (by rw [hwk]; omega)]
  · have h6 : i = 6 := by omega
    subst h6
    rw [if_neg h5]
    rw [if_pos (by rw [hwk]; omega)]
    rw [show ruleCycleTrap.interval = 20871 from rfl]
    norm_num
    ring

/-- The cycle-trap weekly walk never decides: every reachable candidate is
one of seven day-residues modulo the 400-year cycle and none matches. -/
lemma cycleTrap_loop_none : ∀ (fuel : ℕ) (j i : ℤ), 0 ≤ i → i ≤ 6 →
    nextWeeklyLoop evCycleTrap ruleCycleTrap fuel ((19723 + 146097 * j + i) * 86400) = none := by
  intro fuel
  induction fuel with
  | zero => intros; rfl
  | succ f ih =>
    intro j i h0 hi
    unfold nextWeeklyLoop
    rw [cycleTrap_step j i h0 hi]
    by_cases h5 : i ≤ 5
    · rw [if_pos h5]
      rw [cycleTrap_matches_eval j (i + 1) (by omega) (by omega)]
      rw [show ruleCycleTrap.untilDt = none from rfl]
      simp only [pastUntil, Bool.false_eq_true, if_false]
      exact ih j (i + 1) (by omega) (by omega)
    · rw [if_neg h5]
      rw [cycleTrap_matches_eval (j + 1) 0 le_rfl (by norm_num)]
      rw [show ruleCycleTrap.untilDt = none from rfl]
      simp only [pastUntil, Bool.false_eq_true, if_false]
      exact ih (j + 1) 0 le_rfl (by norm_num)

/-- When the weekly walk exhausts its fuel, so does the surrounding `next`. -/
lemma next_weekly_none (e : Event) (r : RRule) (k : ℕ) (last : ℤ) (fuel : ℕ)
    (he : e.rrule = some r) (hf : r.frequency = .weekly)
    (hpu : pastUntil r.untilDt last = false) (hcr : countReached r.count (k + 1) = false)
    (hloop : nextWeeklyLoop e r fuel last = none) :
    EventIter.next ⟨e, last, k + 1⟩ fuel = none := by
  unfold EventIter.next EventIter.next_weekly
  simp only [he, hf, hpu, hcr, Bool.false_eq_true, if_false]
  rw [hloop]

/-- C10 counterexample: for the parser-valid weekly rule
`INTERVAL=20871;WKST=MO;BYDAY=4TU` (every byday member has ordinal magnitude
at most 4) on base 2024-01-01, the second call to `next()` does not
terminate: the day-by-day walk never reaches an accepted candidate nor (with
no UNTIL) a candidate past UNTIL, for any fuel, because interval 20871 weeks
is exactly the 146097-day Gregorian calendar cycle and every visited Tuesday
is the 2nd of its month. -/
theorem weekly_interval_cycle_divergent :
    ruleCycleTrap.frequency = .weekly ∧
    ruleCycleTrap.byday = [⟨.tue, some 4⟩] ∧
    ruleCycleTrap.untilDt = none ∧
    ruleCycleTrap.count = none ∧
    (EventIter.of evCycleTrap).next 7 =
      some (some evCycleTrap, ⟨evCycleTrap, 19723 * 86400, 1⟩) ∧
    ∀ fuel : ℕ, EventIter.next ⟨evCycleTrap, 19723 * 86400, 1⟩ fuel = none := by
  refine ⟨rfl, rfl, rfl, rfl, rfl, ?_⟩
  intro fuel
  have hloop : nextWeeklyLoop evCycleTrap ruleCycleTrap fuel (19723 * 86400) = none := by
    have h := cycleTrap_loop_none fuel 0 0 le_rfl (by norm_num)
    rwa [show (19723 + 146097 * (0:ℤ) + 0) * 86400 = 19723 * 86400 from by norm_num] at h
  exact next_weekly_none evCycleTrap ruleCycleTrap 0 (19723 * 86400) fuel rfl rfl rfl rfl hloop

end Calvest
